import Mathlib

/-!
Verification development for the Photography.AI review pipeline.

The Python sources are embedded shallowly over `List Char`:
* `simple_chunker`, `setup_vector_db`, `perform_rag` from src/app.py
* `clean_review_text` from src/clean_reviews.py

Python strings become `List Char`; Python `str.find` / `str.rfind` /
slicing / `strip` become the executable functions below, and each
`re.sub` call becomes an application of a small executable regex engine
to a pattern term transcribed from the source.
-/

set_option maxHeartbeats 1000000
set_option maxRecDepth 100000

namespace PhotoAI

/-- Python whitespace (ASCII part), as used by str.strip and regex class s. -/
def isPySpace (c : Char) : Bool :=
  c = ' ' || c = '\t' || c = '\n' || c = '\r' || c = '\x0b' || c = '\x0c'

/-- Python str.strip(): drop leading and trailing whitespace. -/
def pyStrip (s : List Char) : List Char :=
  ((s.dropWhile isPySpace).reverse.dropWhile isPySpace).reverse

/-- Python slice s[a:b] for 0 <= a, b (clamped to the length). -/
def pySlice (s : List Char) (a b : Nat) : List Char :=
  (s.take b).drop a

/-- ASCII lower-casing, modelling str.lower on the ASCII inputs used here. -/
def asciiLower (c : Char) : Char :=
  if 'A' ≤ c ∧ c ≤ 'Z' then Char.ofNat (c.toNat + 32) else c

/-- Helper for Python str.find: scan the suffix starting at index `i`. -/
def strFindAux (pat : List Char) : List Char → Nat → Int
  | suf, i =>
    if pat.isPrefixOf suf then (i : Int)
    else
      match suf with
      | [] => -1
      | _ :: rest => strFindAux pat rest (i + 1)

/-- Python str.find: index of first occurrence, or -1. -/
def strFind (s pat : List Char) : Int :=
  strFindAux pat s 0

/-- Helper for Python str.rfind: scan candidate start positions downward. -/
def strRfindDown (s pat : List Char) (start : Nat) : Nat → Int
  | 0 => if 0 < start then -1 else if pat.isPrefixOf s then 0 else -1
  | i + 1 =>
    if i + 1 < start then -1
    else if pat.isPrefixOf (s.drop (i + 1)) then ((i + 1 : Nat) : Int)
    else strRfindDown s pat start i

/-- Python str.rfind(pat, start, fin): last occurrence of `pat` starting
in the clipped range, or -1. -/
def strRfind (s pat : List Char) (start fin : Nat) : Int :=
  let m := min fin s.length
  if pat.length ≤ m then strRfindDown s pat start (m - pat.length) else -1

/-! ## The chunker (src/app.py, simple_chunker, lines 61-81) -/

/-- The paragraph-break pattern searched by the chunker. -/
def paraBreak : List Char := ['\n', '\n']

/-- The sentence-ending pattern searched by the chunker. -/
def dotChar : List Char := ['.']

/-- End position proposed for the chunk starting at cursor `c`:
the window clipped to the text length (end_pos of app.py line 66),
preferring a paragraph break past `c + overlap`, then a period past
`c + overlap` (lines 67-71); the two locals of the source are inlined. -/
def chunkerEnd (t : List Char) (mc ov c : Nat) : Nat :=
  if strRfind t paraBreak c (min (c + mc) t.length) > (c : Int) + (ov : Int) then
    (strRfind t paraBreak c (min (c + mc) t.length) + 2).toNat
  else if strRfind t dotChar c (min (c + mc) t.length) > (c : Int) + (ov : Int) then
    (strRfind t dotChar c (min (c + mc) t.length) + 1).toNat
  else min (c + mc) t.length

/-- Cursor update of the chunker loop:
next_start = end_pos - overlap; current_pos = max(current_pos + 1, next_start)
(app.py lines 77-78). -/
def chunkerNext (t : List Char) (mc ov c : Nat) : Nat :=
  max (c + 1) ((chunkerEnd t mc ov c : Int) - (ov : Int)).toNat

/-- The while-loop of simple_chunker (app.py lines 65-80), with the
source locals end_pos, chunk and the updated current_pos written out as
chunkerEnd, the stripped slice, and chunkerNext.  The cursor strictly
increases on every iteration, so a fuel of the text length plus one (as
supplied by `simple_chunker`) always outlasts the loop. -/
def simple_chunker_loop (t : List Char) (mc ov : Nat) :
    Nat → Nat → List (List Char) → List (List Char)
  | 0, _, acc => acc
  | fuel + 1, c, acc =>
    if c < t.length then
      if ((chunkerEnd t mc ov c : Int) - (ov : Int)) ≤ (chunkerNext t mc ov c : Int)
          ∧ chunkerEnd t mc ov c = t.length then
        (if (pyStrip (pySlice t c (chunkerEnd t mc ov c))).isEmpty then acc
         else acc ++ [pyStrip (pySlice t c (chunkerEnd t mc ov c))])
      else
        simple_chunker_loop t mc ov fuel (chunkerNext t mc ov c)
          (if (pyStrip (pySlice t c (chunkerEnd t mc ov c))).isEmpty then acc
           else acc ++ [pyStrip (pySlice t c (chunkerEnd t mc ov c))])
    else acc

/-- src/app.py, simple_chunker: chunk text into bounded, overlapping pieces.
The trailing filter mirrors the final list comprehension (line 81). -/
def simple_chunker (t : List Char) (mc ov : Nat) : List (List Char) :=
  (simple_chunker_loop t mc ov (t.length + 1) 0 []).filter (fun x => !x.isEmpty)

/-- The same loop, recording every visited window (cursor, end) pair. -/
def chunker_windows_loop (t : List Char) (mc ov : Nat) :
    Nat → Nat → List (Nat × Nat)
  | 0, _ => []
  | fuel + 1, c =>
    if c < t.length then
      if ((chunkerEnd t mc ov c : Int) - (ov : Int)) ≤ (chunkerNext t mc ov c : Int)
          ∧ chunkerEnd t mc ov c = t.length then
        [(c, chunkerEnd t mc ov c)]
      else
        (c, chunkerEnd t mc ov c) ::
          chunker_windows_loop t mc ov fuel (chunkerNext t mc ov c)
    else []

/-- All windows visited by simple_chunker on `t`. -/
def chunkerWindows (t : List Char) (mc ov : Nat) : List (Nat × Nat) :=
  chunker_windows_loop t mc ov (t.length + 1) 0

/-- The windows whose trimmed chunk is non-empty, i.e. whose chunk is emitted. -/
def emittedWindows (t : List Char) (mc ov : Nat) : List (Nat × Nat) :=
  (chunkerWindows t mc ov).filter (fun w => !(pyStrip (pySlice t w.1 w.2)).isEmpty)

/-! ## A small regex engine

Each re.sub pattern of src/clean_reviews.py is transcribed into a term of
`RE` below.  The matcher `reEnds` returns the possible end positions of a
match starting at a given position, in Python backtracking preference
order: alternation prefers its left branch, a lazy dot-star prefers fewer
characters, greedy repetitions prefer more. -/

inductive RE where
  | lit (cs : List Char) (ci : Bool)
  | bol
  | eos
  | dots
  | digit
  | digits
  | spaces
  | classMin (cs : List Char) (n : Nat)
  | opt (r : RE)
  | seq (a b : RE)
  | alt (a b : RE)
  | plus (r : RE)
deriving DecidableEq, Repr

/-- A matcher state: the previously consumed character (none at the very
start of the text; needed by the multiline caret anchor) and the
remaining suffix. -/
abbrev ReState := Option Char × List Char

/-- Consume a literal, case-sensitively or (against a pre-lowercased
pattern) case-insensitively. -/
def litMatch (ci : Bool) : List Char → Option Char → List Char → Option ReState
  | [], prev, suf => some (prev, suf)
  | c :: cs, _, d :: rest =>
    if (if ci then asciiLower d else d) = c then litMatch ci cs (some d) rest
    else none
  | _ :: _, _, [] => none

/-- States after a lazy non-newline dot-star, shortest first. -/
def dotsStates : Option Char → List Char → List ReState
  | prev, suf =>
    (prev, suf) :: match suf with
                   | [] => []
                   | c :: rest => if c = '\n' then [] else dotsStates (some c) rest

/-- States after consuming 1, 2, ... characters of the leading run of
characters satisfying `p`, in increasing-consumption order. -/
def takeRunStates (p : Char → Bool) : Option Char → List Char → List ReState
  | _, [] => []
  | _, c :: rest =>
    if p c then (some c, rest) :: takeRunStates p (some c) rest else []

/-- Structural size of a pattern, used to bound the matcher fuel. -/
def reSize : RE → Nat
  | .opt r1 => reSize r1 + 1
  | .seq a b => reSize a + reSize b + 1
  | .alt a b => reSize a + reSize b + 1
  | .plus r1 => reSize r1 + 1
  | _ => 1

/-- States after a match of pattern `r` starting in state (prev, suf), in
Python backtracking preference order (the head is the match Python
reports): alternation prefers its left branch, a lazy dot-star prefers
fewer characters, greedy repetitions prefer more.  The fuel only bounds
the recursion depth; every recursive call either moves to a structurally
smaller pattern or strictly shortens the suffix, so a fuel of
(length + 2) * (size + 1) always suffices. -/
def reEndsF : Nat → RE → Option Char → List Char → List ReState
  | 0, _, _, _ => []
  | fuel + 1, r, prev, suf =>
    match r with
    | .lit cs ci =>
      match litMatch ci cs prev suf with
      | some st => [st]
      | none => []
    | .bol => if prev = none ∨ prev = some '\n' then [(prev, suf)] else []
    | .eos => if suf.isEmpty then [(prev, suf)] else []
    | .dots => dotsStates prev suf
    | .digit =>
      match suf with
      | c :: rest => if c.isDigit then [(some c, rest)] else []
      | [] => []
    | .digits => (takeRunStates Char.isDigit prev suf).reverse
    | .spaces => (takeRunStates isPySpace prev suf).reverse ++ [(prev, suf)]
    | .classMin cs n =>
      if n = 0 then
        (takeRunStates (fun c => cs.contains c) prev suf).reverse ++ [(prev, suf)]
      else ((takeRunStates (fun c => cs.contains c) prev suf).drop (n - 1)).reverse
    | .opt r1 => reEndsF fuel r1 prev suf ++ [(prev, suf)]
    | .alt a b => reEndsF fuel a prev suf ++ reEndsF fuel b prev suf
    | .seq a b => (reEndsF fuel a prev suf).bind (fun st => reEndsF fuel b st.1 st.2)
    | .plus r1 =>
      (reEndsF fuel r1 prev suf).bind (fun st =>
        if st.2.length < suf.length then reEndsF fuel (.plus r1) st.1 st.2 ++ [st]
        else [st])

/-- The standard fuel, sufficient for any match attempt inside `s`. -/
def reFuel (r : RE) (s : List Char) : Nat :=
  (s.length + 2) * (reSize r + 1)

/-- The state after the match Python reports in state (prev, suf), if any. -/
def reFirst (r : RE) (prev : Option Char) (suf : List Char) : Option ReState :=
  (reEndsF (reFuel r suf) r prev suf).head?

/-- The scanning loop of re.sub: copy a character, or emit the
replacement and resume after a non-overlapping match (after one character
for a zero-width match, as Python does).  Every step strictly shortens
the suffix, so a scan fuel of the text length plus one always suffices. -/
def reSubGo (r : RE) (rep : List Char) (fuel : Nat) :
    Nat → Option Char → List Char → List Char
  | 0, _, _ => []
  | sfuel + 1, prev, suf =>
    match suf with
    | [] => []
    | c :: rest =>
      match (reEndsF fuel r prev suf).head? with
      | some st =>
        if st.2.length < suf.length then rep ++ reSubGo r rep fuel sfuel st.1 st.2
        else rep ++ c :: reSubGo r rep fuel sfuel (some c) rest
      | none => c :: reSubGo r rep fuel sfuel (some c) rest

/-- Python re.sub(r, rep, s) for the patterns used here (all of which
match at least one character, so the zero-width-at-end case cannot arise). -/
def reSub (r : RE) (rep : List Char) (s : List Char) : List Char :=
  reSubGo r rep (reFuel r s) (s.length + 1) none s

/-- Scan for the text strictly before the leftmost match, if any match
exists. -/
def reSplitGo (r : RE) (fuel : Nat) : Option Char → List Char → Option (List Char)
  | prev, suf =>
    if !(reEndsF fuel r prev suf).isEmpty then some []
    else
      match suf with
      | [] => none
      | c :: rest =>
        match reSplitGo r fuel (some c) rest with
        | some pre => some (c :: pre)
        | none => none

/-- First element of re.split(r, s, maxsplit 1): the text before the
leftmost match, or the whole string when there is no match. -/
def reSplitFirst (r : RE) (s : List Char) : List Char :=
  match reSplitGo r (reFuel r s) none s with
  | some pre => pre
  | none => s

/-! ## The Cleaner (src/clean_reviews.py, clean_review_text, lines 10-92) -/

/-- The fixed end-of-review markers (clean_reviews.py lines 18-29); the
last one is a line of 73 underscores. -/
def end_markers : List (List Char) :=
  [("Pros:").data,
   ("Cons:").data,
   ("Conclusion").data,
   ("GEAR USED:").data,
   ("Purchase the").data,
   ("Keywords:").data,
   ("Share on Facebook").data,
   ("Want to support this channel?").data,
   ("Buy DA Merchandise").data,
   List.replicate 73 '_']

/-- Minimum case-insensitive marker offset, defaulting to the text length
(clean_reviews.py lines 30-40). -/
def firstEndPos (text : List Char) : Int :=
  end_markers.foldl
    (fun acc m =>
      let pos := strFind (text.map asciiLower) (m.map asciiLower)
      if pos ≠ -1 ∧ pos < acc then pos else acc)
    ((text.length : Int))

/-- Text up to the first end marker, stripped (clean_reviews.py line 43). -/
def truncatedText (text : List Char) : List Char :=
  pyStrip (text.take (firstEndPos text).toNat)

/-- The alternative of a newline and the end anchor, written in the
source patterns as a group of backslash-n and dollar. -/
def eolAlt : RE := RE.alt (RE.lit ['\n'] false) RE.eos

/-- Separator used by the short-result fallback split: two newlines, at
least 20 dash or underscore characters, two newlines (line 49). -/
def sepRE : RE :=
  RE.seq (RE.lit ['\n', '\n'] false)
    (RE.seq (RE.classMin ['-', '_'] 20) (RE.lit ['\n', '\n'] false))

/-- Truncation plus the short-result fallback (clean_reviews.py lines 43-54). -/
def meaningfulText (text : List Char) : List Char :=
  let mt := truncatedText text
  if mt.length < 300 then
    let part0 := reSplitFirst sepRE text
    if 300 < part0.length then pyStrip part0 else mt
  else mt

/-- Line 61: caret, Follow Me at-sign, lazy dots, newline-or-end;
MULTILINE and IGNORECASE. -/
def p01 : RE :=
  RE.seq RE.bol (RE.seq (RE.lit ("follow me @").data true) (RE.seq RE.dots eolAlt))

/-- Line 62: caret, Thanks to, lazy dots, for sending me, lazy dots,
newline-or-end; MULTILINE and IGNORECASE. -/
def p02 : RE :=
  RE.seq RE.bol
    (RE.seq (RE.lit ("thanks to ").data true)
      (RE.seq RE.dots
        (RE.seq (RE.lit (" for sending me").data true) (RE.seq RE.dots eolAlt))))

/-- Line 63: caret, star character, The tests and most of the photos,
lazy dots, newline-or-end; MULTILINE and IGNORECASE. -/
def p03 : RE :=
  RE.seq RE.bol
    (RE.seq (RE.lit ("*the tests and most of the photos").data true)
      (RE.seq RE.dots eolAlt))

/-- Line 64: caret, You can visit the product page, lazy dots,
newline-or-end; MULTILINE and IGNORECASE. -/
def p04 : RE :=
  RE.seq RE.bol
    (RE.seq (RE.lit ("you can visit the product page").data true)
      (RE.seq RE.dots eolAlt))

/-- Line 67: Viltrox AIR Series Reviews colon, lazy dots, newline, then one
or more lines of Viltrox AF, lazy dots, newline-or-end; IGNORECASE. -/
def p05 : RE :=
  RE.seq (RE.lit ("viltrox air series reviews:").data true)
    (RE.seq RE.dots
      (RE.seq (RE.lit ['\n'] false)
        (RE.plus
          (RE.seq (RE.lit ("viltrox af").data true) (RE.seq RE.dots eolAlt)))))

/-- Line 68: Here-apostrophe-s a look at my reviews of this series, lazy
dots, newline-or-end; MULTILINE and IGNORECASE. -/
def p06 : RE :=
  RE.seq (RE.lit ("here’s a look at my reviews of this series").data true)
    (RE.seq RE.dots eolAlt)

/-- Line 72: open paren, use code, lazy dots, for, lazy dots, percent off,
close paren; IGNORECASE. -/
def p07 : RE :=
  RE.seq (RE.lit ("(use code ").data true)
    (RE.seq RE.dots
      (RE.seq (RE.lit (" for ").data true)
        (RE.seq RE.dots (RE.lit ("% off)").data true))))

/-- Line 75: watching the video review below, whitespace star, or reading
on; IGNORECASE. -/
def p08 : RE :=
  RE.seq (RE.lit ("watching the video review below").data true)
    (RE.seq RE.spaces (RE.lit ("or reading on").data true))

/-- Replacement for p08. -/
def rep08 : List Char := ("as detailed below").data

/-- Line 76: For example, here is, lazy dots, at F, digits, optional dot
and digit, compared to, lazy dots, colon; IGNORECASE. -/
def p09 : RE :=
  RE.seq (RE.lit ("for example, here is ").data true)
    (RE.seq RE.dots
      (RE.seq (RE.lit (" at f").data true)
        (RE.seq RE.digits
          (RE.seq (RE.opt (RE.seq (RE.lit (".").data false) RE.digit))
            (RE.seq (RE.lit (" compared to ").data true)
              (RE.seq RE.dots (RE.lit (":").data true)))))))

/-- Replacement for p09. -/
def rep09 : List Char := ("[Comparison description:]").data

/-- Line 77: the corner comparison sentence; IGNORECASE. -/
def p10 : RE :=
  RE.lit ("but here is something absurd: check out the corner comparison!").data true

/-- Replacement for p10. -/
def rep10 : List Char := ("[Corner comparison description follows.]").data

/-- Line 78: the interjection Oof followed by an exclamation mark;
case-sensitive. -/
def p11 : RE := RE.lit ("Oof!").data false

/-- Line 79: Here-apostrophe-s a deep crop from a photo, lazy dots, colon;
IGNORECASE. -/
def p12 : RE :=
  RE.seq (RE.lit ("here’s a deep crop from a photo").data true)
    (RE.seq RE.dots (RE.lit (":").data true))

/-- Replacement for p12. -/
def rep12 : List Char := ("[Deep crop description:]").data

/-- Line 80: Here-apostrophe-s an image taken at F, digits, colon;
IGNORECASE. -/
def p13 : RE :=
  RE.seq (RE.lit ("here’s an image taken at f").data true)
    (RE.seq RE.digits (RE.lit (":").data true))

/-- Replacement for p13. -/
def rep13 : List Char := ("[Image description:]").data

/-- Line 81: Here-apostrophe-s what that looks like, colon; IGNORECASE. -/
def p14 : RE := RE.lit ("here’s what that looks like:").data true

/-- Replacement for p14. -/
def rep14 : List Char := ("[Magnification example description:]").data

/-- Line 82: Here-apostrophe-s a grab from a video clip, lazy dots, colon;
IGNORECASE. -/
def p15 : RE :=
  RE.seq (RE.lit ("here’s a grab from a video clip").data true)
    (RE.seq RE.dots (RE.lit (":").data true))

/-- Replacement for p15. -/
def rep15 : List Char := ("[Video frame description:]").data

/-- Line 83: Here-apostrophe-s a look at my test chart, colon; IGNORECASE. -/
def p16 : RE := RE.lit ("here’s a look at my test chart:").data true

/-- Replacement for p16. -/
def rep16 : List Char := ("[Test chart description:]").data

/-- Line 84: And here are the crops, lazy dots, colon; IGNORECASE. -/
def p17 : RE :=
  RE.seq (RE.lit ("and here are the crops").data true)
    (RE.seq RE.dots (RE.lit (":").data true))

/-- Replacement for p17. -/
def rep17 : List Char := ("[Crop descriptions follow:]").data

/-- Line 85: visit the image gallery here; IGNORECASE. -/
def p18 : RE := RE.lit ("visit the image gallery here").data true

/-- Replacement for p18. -/
def rep18 : List Char := ("(image gallery link removed)").data

/-- Line 89: a run of at least 5 underscores; case-sensitive. -/
def p19 : RE := RE.classMin ['_'] 5

/-- Line 90: a run of at least 3 newlines, replaced by two newlines. -/
def p20 : RE := RE.classMin ['\n'] 3

/-- Replacement for p20. -/
def rep20 : List Char := ['\n', '\n']

/-- The ordered noise-removal passes of lines 61-90 applied to the
truncated text; the first four passes are followed by a strip, exactly as
in the source. -/
def noiseStripped (m0 : List Char) : List Char :=
  let c01 := pyStrip (reSub p01 [] m0)
  let c02 := pyStrip (reSub p02 [] c01)
  let c03 := pyStrip (reSub p03 [] c02)
  let c04 := pyStrip (reSub p04 [] c03)
  let c05 := reSub p05 [] c04
  let c06 := reSub p06 [] c05
  let c07 := reSub p07 [] c06
  let c08 := reSub p08 rep08 c07
  let c09 := reSub p09 rep09 c08
  let c10 := reSub p10 rep10 c09
  let c11 := reSub p11 [] c10
  let c12 := reSub p12 rep12 c11
  let c13 := reSub p13 rep13 c12
  let c14 := reSub p14 rep14 c13
  let c15 := reSub p15 rep15 c14
  let c16 := reSub p16 rep16 c15
  let c17 := reSub p17 rep17 c16
  let c18 := reSub p18 rep18 c17
  let c19 := reSub p19 [] c18
  reSub p20 rep20 c19

/-- src/clean_reviews.py, clean_review_text: guard, marker truncation,
short-result fallback, ordered noise removal, final strip.  The url
argument is only used for logging in the source. -/
def clean_review_text (text url : List Char) : List Char :=
  if (pyStrip text).isEmpty then []
  else pyStrip (noiseStripped (meaningfulText text))

/-! ## The Corpus Builder (src/app.py, setup_vector_db, lines 83-157) -/

/-- Decimal digits of a natural number, as produced by the Python str
conversion inside the id f-string. -/
def natDecimal (n : Nat) : List Char :=
  if h : n < 10 then [Char.ofNat (48 + n)]
  else natDecimal (n / 10) ++ [Char.ofNat (48 + n % 10)]
termination_by n
decreasing_by exact Nat.div_lt_self (by omega) (by omega)

/-- Decimal read-back used to prove `natDecimal` injective. -/
def fromDecimal (l : List Char) : Nat :=
  l.foldl (fun a c => a * 10 + (c.toNat - 48)) 0

/-- The id string of app.py line 126: review_, document index, _chunk_,
chunk index (both passed 1-based by the builder loop). -/
def mkDocId (docIdx chunkIdx : Nat) : List Char :=
  ("review_").data ++ natDecimal docIdx ++ ("_chunk_").data ++ natDecimal chunkIdx

/-- One record of the cleaned-reviews JSON file consumed by the builder. -/
structure ReviewRec where
  content_text : List Char
  url : List Char
  title : List Char
deriving DecidableEq, Repr

/-- Metadata attached to a chunk (app.py lines 128-133). -/
structure ChunkMeta where
  source_url : List Char
  title : List Char
  chunk_num : Nat
  original_doc_index : Nat
deriving DecidableEq, Repr

/-- One entry handed to the external index: document, metadata, id. -/
structure IndexEntry where
  document : List Char
  metadata : ChunkMeta
  id : List Char
deriving DecidableEq, Repr

/-- The external index collaborator, as a plain store of entries. -/
structure Collection where
  entries : List IndexEntry
deriving DecidableEq, Repr

/-- collection.count(). -/
def Collection.count (c : Collection) : Nat := c.entries.length

/-- The entries contributed by the review at 0-based enumerate index `i`
(app.py lines 113-134): skip on empty content, chunk with the default
parameters, then build metadata and the 1-based id per chunk. -/
def reviewRows (i : Nat) (r : ReviewRec) : List IndexEntry :=
  if r.content_text.isEmpty then []
  else
    (simple_chunker r.content_text 1800 200).enum.map (fun kc =>
      { document := kc.2,
        metadata := { source_url := r.url, title := r.title,
                      chunk_num := kc.1 + 1, original_doc_index := i + 1 },
        id := mkDocId (i + 1) (kc.1 + 1) })

/-- The enumerate loop of app.py lines 113-134, with explicit index. -/
def buildRows : Nat → List ReviewRec → List IndexEntry
  | _, [] => []
  | i, r :: rs => reviewRows i r ++ buildRows (i + 1) rs

/-- All entries the builder prepares for one corpus. -/
def corpusEntries (reviews : List ReviewRec) : List IndexEntry :=
  buildRows 0 reviews

/-- The ids the builder generates for one corpus. -/
def corpusIds (reviews : List ReviewRec) : List (List Char) :=
  (corpusEntries reviews).map (fun e => e.id)

/-- Split a list into consecutive batches of size `bs` (app.py line 138). -/
def chunkBatches (bs : Nat) (l : List IndexEntry) : List (List IndexEntry) :=
  if h : l = [] ∨ bs = 0 then []
  else l.take bs :: chunkBatches bs (l.drop bs)
termination_by l.length
decreasing_by
  rcases l with _ | ⟨a, l⟩
  · simp at h
  · simp [List.length_drop]; omega

/-- src/app.py, setup_vector_db: return the collection unchanged when it
already holds entries (lines 94-96); otherwise, when the data file loads,
add every prepared entry in batches of 100 (lines 109-153); data-file
failure yields None (lines 102-107). -/
def setup_vector_db (coll : Collection) (data : Option (List ReviewRec)) :
    Option Collection :=
  if 0 < coll.count then some coll
  else
    match data with
    | none => none
    | some reviews =>
      some ⟨(chunkBatches 100 (corpusEntries reviews)).foldl
              (fun es b => es ++ b) coll.entries⟩

/-! ## The Answerer (src/app.py, perform_rag, lines 170-266) -/

/-- The query result row used by perform_rag (documents, metadatas and
distances of the single query; distances only feed debug prints). -/
structure QueryResult where
  documents : List (List Char)
  metadatas : List ChunkMeta
  distances : List Int
deriving DecidableEq, Repr

/-- app.py line 173. -/
def dbNotInitMsg : List Char := ("Error: Vector database not initialized.").data

/-- app.py line 266: the fixed apology returned from the except block. -/
def apologyMsg : List Char :=
  ("Sorry, an error occurred while processing your request.").data

/-- app.py line 199: context used when no documents are retrieved. -/
def noContextMsg : List Char := ("No relevant context found in the reviews.").data

/-- app.py line 210: separator between context lines. -/
def contextSep : List Char := ("\n\n---\n\n").data

/-- app.py line 209: one metadata-qualified context line. -/
def contextLine (doc : List Char) (meta : ChunkMeta) : List Char :=
  ("Source: ").data ++ meta.title ++ ("\nContent:\n").data ++ doc

/-- app.py lines 196-211: the assembled context block. -/
def contextBlock (qr : QueryResult) : List Char :=
  if qr.documents.isEmpty then noContextMsg
  else
    List.intercalate contextSep
      ((qr.documents.zip (qr.metadatas.zip qr.distances)).map
        (fun x => contextLine x.1 x.2.1))

/-- app.py lines 216-218: the fixed system prompt. -/
def systemPrompt : List Char :=
  ("You are a helpful assistant answering questions based ONLY on the provided context from Dustin Abbott's photography reviews.\nIf the answer is not found in the context, say 'I cannot answer this based on the provided reviews.' Do not make up information.\nBe concise and directly answer the question using the information from the reviews.").data

/-- app.py lines 220-229: the user prompt embedding context and question. -/
def userPrompt (ctx query : List Char) : List Char :=
  ("Based ONLY on the context below from Dustin Abbott's reviews, please answer the question.\n\nContext:\n--- START CONTEXT ---\n").data
    ++ ctx
    ++ ("\n--- END CONTEXT ---\n\nQuestion: ").data
    ++ query
    ++ ("\n\nAnswer:").data

/-- src/app.py, perform_rag.  The external index query and the language
model call are the two fallible collaborators inside the try block; any
failure of either is caught and converted to the apology string (lines
263-266).  A successful answer is returned stripped (line 261). -/
def perform_rag {ε : Type} (coll : Option Collection)
    (queryRes : Except ε QueryResult)
    (llm : List Char → List Char → Except ε (List Char))
    (query : List Char) : List Char :=
  match coll with
  | none => dbNotInitMsg
  | some _ =>
    match queryRes with
    | .error _ => apologyMsg
    | .ok qr =>
      match llm systemPrompt (userPrompt (contextBlock qr) query) with
      | .error _ => apologyMsg
      | .ok ans => pyStrip ans

/-! ## Derived predicates and concrete inputs used by the theorems -/

/-- Number of leading newline characters of a string. -/
def leadNL : List Char → Nat
  | [] => 0
  | c :: t => if c = '\n' then leadNL t + 1 else 0

/-- Length of the leading run of characters satisfying `p`. -/
def runCount (p : Char → Bool) : List Char → Nat
  | [] => 0
  | c :: rest => if p c then runCount p rest + 1 else 0

/-- True when the string contains no run of three consecutive newlines. -/
def noTriple : List Char → Bool
  | [] => true
  | c :: t => !(c = '\n' && decide (2 ≤ leadNL t)) && noTriple t

/-- Scan every state of `s` for a match of `r`, with fixed match fuel. -/
def reHasMatchGo (r : RE) (fuel : Nat) : Option Char → List Char → Bool
  | prev, suf =>
    if !(reEndsF fuel r prev suf).isEmpty then true
    else
      match suf with
      | [] => false
      | c :: rest => reHasMatchGo r fuel (some c) rest

/-- Does pattern `r` match anywhere in `s`? -/
def reHasMatch (r : RE) (s : List Char) : Bool :=
  reHasMatchGo r (reFuel r s) none s

/-- Pattern `r` matches nowhere in `s`. -/
def noMatch (r : RE) (s : List Char) : Prop :=
  reHasMatch r s = false

instance (r : RE) (s : List Char) : Decidable (noMatch r s) :=
  instDecidableEqBool _ _

/-- All noise-removal patterns of clean_review_text, in source order. -/
def noisePatterns : List RE :=
  [p01, p02, p03, p04, p05, p06, p07, p08, p09, p10, p11, p12, p13, p14,
   p15, p16, p17, p18, p19, p20]

/-- `x` contains no case-insensitive occurrence of any end marker. -/
def markerFree (x : List Char) : Prop :=
  ∀ m ∈ end_markers, strFind (x.map asciiLower) (m.map asciiLower) = -1

instance (x : List Char) : Decidable (markerFree x) :=
  List.decidableBAll _ _

/-- Already clean in the strong syntactic sense: stripped, marker-free,
and matched by none of the noise-removal patterns. -/
def alreadyCleanStrong (x : List Char) : Prop :=
  pyStrip x = x ∧ markerFree x ∧ ∀ r ∈ noisePatterns, noMatch r x

instance (x : List Char) : Decidable (alreadyCleanStrong x) :=
  And.decidable

/-- A review text starting with a marker and long enough to trigger the
short-result fallback of the Cleaner. -/
def fallbackInput : List Char := ("Pros:").data ++ List.replicate 296 'a'

/-- A marker-free text from which the Oof-removal pass splices together
the marker Conclusion. -/
def spliceInput : List Char := ("ConcluOof!sion").data

/-- A 300-character text, shorter than the default max_chars, with a
period after the default overlap. -/
def chunkEdgeInput : List Char :=
  List.replicate 250 'a' ++ '.' :: List.replicate 49 'b'

/-- A one-entry collection, witnessing the populated-index early return. -/
def collOne : Collection :=
  ⟨[{ document := ['d'], metadata := ⟨[], [], 1, 1⟩, id := ['i'] }]⟩

/-! ## Supporting lemmas: strip -/

theorem dropWhile_head_not (p : Char → Bool) (l : List Char) :
    ∀ c, (l.dropWhile p).head? = some c → p c = false := by
  induction l with
  | nil => intro c h; simp [List.dropWhile] at h
  | cons a t ih =>
    intro c h
    rw [List.dropWhile_cons] at h
    by_cases hp : p a = true
    · rw [if_pos hp] at h
      exact ih c h
    · rw [if_neg hp] at h
      simp only [List.head?_cons, Option.some.injEq] at h
      rw [← h]
      exact Bool.not_eq_true _ ▸ hp

theorem pyStrip_prefix_dropWhile (l : List Char) :
    pyStrip l <+: l.dropWhile isPySpace := by
  have h2 : ((l.dropWhile isPySpace).reverse.dropWhile isPySpace)
      <:+ (l.dropWhile isPySpace).reverse := List.dropWhile_suffix _
  have h3 := List.reverse_prefix.mpr h2
  rwa [List.reverse_reverse] at h3

theorem pyStrip_within (l : List Char) : pyStrip l <:+: l := by
  have h1 : l.dropWhile isPySpace <:+ l := List.dropWhile_suffix _
  exact (pyStrip_prefix_dropWhile l).isInfix.trans h1.isInfix

theorem pyStrip_length_le (l : List Char) : (pyStrip l).length ≤ l.length :=
  (pyStrip_within l).sublist.length_le

theorem pyStrip_getLast_not_space (l : List Char) :
    ∀ c, (pyStrip l).getLast? = some c → isPySpace c = false := by
  intro c h
  unfold pyStrip at h
  rw [List.getLast?_reverse] at h
  exact dropWhile_head_not _ _ c h

theorem pyStrip_head_not_space (l : List Char) :
    ∀ c, (pyStrip l).head? = some c → isPySpace c = false := by
  intro c h
  obtain ⟨r, hr⟩ := pyStrip_prefix_dropWhile l
  have hh : (l.dropWhile isPySpace).head? = some c := by
    rw [← hr]
    cases hx : pyStrip l with
    | nil => rw [hx] at h; simp at h
    | cons b bs =>
      rw [hx] at h
      simp only [List.head?_cons, Option.some.injEq] at h
      simp [h]
  exact dropWhile_head_not _ _ c hh

/-! ## Supporting lemmas: newline runs -/

theorem leadNL_le_length (l : List Char) : leadNL l ≤ l.length := by
  induction l with
  | nil => simp [leadNL]
  | cons a t ih =>
    by_cases h : a = '\n'
    · simp only [leadNL, if_pos h, List.length_cons]
      omega
    · simp only [leadNL, if_neg h]
      omega

theorem leadNL_cons (c : Char) (t : List Char) :
    leadNL (c :: t) = if c = '\n' then leadNL t + 1 else 0 := rfl

theorem leadNL_drop_self (l : List Char) : leadNL (l.drop (leadNL l)) = 0 := by
  induction l with
  | nil => simp [leadNL]
  | cons a t ih =>
    by_cases h : a = '\n'
    · have h1 : leadNL (a :: t) = leadNL t + 1 := by simp [leadNL, h]
      rw [h1, List.drop_succ_cons]
      exact ih
    · have h0 : leadNL (a :: t) = 0 := by simp [leadNL, h]
      rw [h0, List.drop_zero]
      exact h0

theorem replicate_nl_iff_leadNL (k : Nat) (t : List Char) :
    List.replicate k '\n' <+: t ↔ k ≤ leadNL t := by
  induction k generalizing t with
  | zero => simp
  | succ n ih =>
    cases t with
    | nil =>
      simp only [List.replicate_succ, List.prefix_nil, leadNL]
      constructor
      · intro h
        exact absurd h (by simp)
      · omega
    | cons a t2 =>
      rw [List.replicate_succ, List.cons_prefix_cons]
      by_cases h : a = '\n'
      · rw [ih]
        simp only [leadNL, if_pos h]
        constructor
        · rintro ⟨_, h2⟩
          omega
        · intro h2
          exact ⟨h.symm, by omega⟩
      · simp only [leadNL, if_neg h]
        constructor
        · rintro ⟨h1, _⟩
          exact absurd h1.symm h
        · omega

theorem noTriple_iff (l : List Char) :
    noTriple l = true ↔ ¬ (['\n', '\n', '\n'] <:+: l) := by
  induction l with
  | nil =>
    simp [noTriple]
  | cons a t ih =>
    rw [List.infix_cons_iff]
    have hpre : ['\n', '\n', '\n'] <+: a :: t ↔ a = '\n' ∧ 2 ≤ leadNL t := by
      rw [show (['\n', '\n', '\n'] : List Char) = '\n' :: ['\n', '\n'] from rfl,
        List.cons_prefix_cons]
      constructor
      · rintro ⟨h1, h2⟩
        exact ⟨h1.symm, (replicate_nl_iff_leadNL 2 t).mp h2⟩
      · rintro ⟨h1, h2⟩
        exact ⟨h1.symm, (replicate_nl_iff_leadNL 2 t).mpr h2⟩
    simp only [noTriple, Bool.and_eq_true, Bool.not_eq_true']
    rw [ih]
    constructor
    · rintro ⟨h1, h2⟩
      rintro (hp | hi)
      · rw [hpre] at hp
        simp [hp.1, hp.2] at h1
      · exact h2 hi
    · intro h
      refine ⟨?_, fun hi => h (Or.inr hi)⟩
      by_cases ha : a = '\n'
      · by_cases hn : 2 ≤ leadNL t
        · exact absurd (Or.inl (hpre.mpr ⟨ha, hn⟩)) h
        · simp only [Bool.and_eq_false_iff]
          right
          simp [hn]
      · simp [ha]

theorem noTriple_of_within (x y : List Char) (hxy : x <:+: y)
    (hy : noTriple y = true) : noTriple x = true := by
  rw [noTriple_iff] at *
  exact fun h => hy (h.trans hxy)

/-! ## Supporting lemmas: the newline-collapsing substitution -/

theorem takeRun_length (p : Char → Bool) (suf : List Char) :
    ∀ prev, (takeRunStates p prev suf).length = runCount p suf := by
  induction suf with
  | nil => intro prev; simp [takeRunStates, runCount]
  | cons a t ih =>
    intro prev
    by_cases h : p a = true
    · simp only [takeRunStates, runCount, if_pos h, List.length_cons, ih]
    · simp only [takeRunStates, runCount, if_neg h, List.length_nil]

theorem takeRun_getLast (p : Char → Bool) (suf : List Char) :
    ∀ prev, 1 ≤ runCount p suf →
      ∃ d, p d = true ∧ (takeRunStates p prev suf).getLast?
        = some (some d, suf.drop (runCount p suf)) := by
  induction suf with
  | nil => intro prev h; simp [runCount] at h
  | cons a t ih =>
    intro prev h
    by_cases ha : p a = true
    · by_cases ht : 1 ≤ runCount p t
      · obtain ⟨d, hd, htail⟩ := ih (some a) ht
        refine ⟨d, hd, ?_⟩
        have hne : takeRunStates p (some a) t ≠ [] := by
          intro hnil
          rw [hnil] at htail
          simp at htail
        simp only [takeRunStates, if_pos ha]
        cases hts : takeRunStates p (some a) t with
        | nil => exact absurd hts hne
        | cons b bs =>
          rw [hts] at htail
          rw [List.getLast?_cons_cons, htail]
          simp only [runCount, if_pos ha, List.drop_succ_cons]
      · have ht0 : runCount p t = 0 := by omega
        have hnil : takeRunStates p (some a) t = [] := by
          have := takeRun_length p t (some a)
          rw [ht0] at this
          exact List.length_eq_zero.mp this
        refine ⟨a, ha, ?_⟩
        simp [takeRunStates, if_pos ha, hnil, runCount, ht0]
    · simp [runCount, if_neg ha] at h

theorem contains_nl_iff (c : Char) :
    ((['\n'] : List Char).contains c = true) ↔ c = '\n' := by
  simp

theorem runCount_nl_eq_leadNL (suf : List Char) :
    runCount (fun c => (['\n'] : List Char).contains c) suf = leadNL suf := by
  induction suf with
  | nil => simp [runCount, leadNL]
  | cons a t ih =>
    by_cases h : a = '\n'
    · have hp : ((['\n'] : List Char).contains a) = true := by
        rw [contains_nl_iff]; exact h
      simp only [runCount, leadNL, if_pos hp, if_pos h, ih]
    · have hp : ¬(((['\n'] : List Char).contains a) = true) := by
        rw [contains_nl_iff]; exact h
      simp only [runCount, leadNL, if_neg hp, if_neg h]

theorem reEndsF_p20_head (fuel : Nat) (prev : Option Char) (suf : List Char) :
    (reEndsF (fuel + 1) p20 prev suf).head? =
      if 3 ≤ leadNL suf then some (some '\n', suf.drop (leadNL suf))
      else none := by
  show (((takeRunStates (fun c => (['\n'] : List Char).contains c) prev
      suf).drop 2).reverse).head? = _
  rw [List.head?_reverse, List.getLast?_drop, takeRun_length]
  rw [runCount_nl_eq_leadNL]
  by_cases h : 3 ≤ leadNL suf
  · rw [if_neg (by omega), if_pos h]
    obtain ⟨d, hd, hlast⟩ := takeRun_getLast
      (fun c => (['\n'] : List Char).contains c) suf prev
      (by rw [runCount_nl_eq_leadNL]; omega)
    rw [runCount_nl_eq_leadNL] at hlast
    have hdnl : d = '\n' := (contains_nl_iff d).mp hd
    rw [hdnl] at hlast
    exact hlast
  · rw [if_pos (by omega), if_neg h]

theorem reSubGo_p20_tidy (fuel : Nat) (hf : 0 < fuel) (sfuel : Nat) :
    ∀ (prev : Option Char) (suf : List Char),
      noTriple (reSubGo p20 rep20 fuel sfuel prev suf) = true ∧
      leadNL (reSubGo p20 rep20 fuel sfuel prev suf) ≤ leadNL suf ∧
      leadNL (reSubGo p20 rep20 fuel sfuel prev suf) ≤ 2 := by
  obtain ⟨k, rfl⟩ := Nat.exists_eq_succ_of_ne_zero (Nat.pos_iff_ne_zero.mp hf)
  induction sfuel with
  | zero =>
    intro prev suf
    refine ⟨by simp [reSubGo, noTriple], ?_, ?_⟩
    · simp only [reSubGo, leadNL]
      exact Nat.zero_le _
    · simp only [reSubGo, leadNL]
      exact Nat.zero_le _
  | succ n ih =>
    simp only [Nat.succ_eq_add_one] at ih
    intro prev suf
    match suf with
    | [] =>
      refine ⟨by simp [reSubGo, noTriple], ?_, ?_⟩
      · simp only [reSubGo, leadNL]
        exact Nat.zero_le _
      · simp only [reSubGo, leadNL]
        exact Nat.zero_le _
    | c :: rest =>
      rw [reSubGo, reEndsF_p20_head]
      by_cases h3 : 3 ≤ leadNL (c :: rest)
      · rw [if_pos h3]
        have hlenlt : ((c :: rest).drop (leadNL (c :: rest))).length
            < (c :: rest).length := by
          rw [List.length_drop]
          have h1 := leadNL_le_length (c :: rest)
          have h2 : 0 < (c :: rest).length := by simp
          omega
        simp only [if_pos hlenlt]
        have hrec := ih (some '\n') ((c :: rest).drop (leadNL (c :: rest)))
        have hzero : leadNL ((c :: rest).drop (leadNL (c :: rest))) = 0 :=
          leadNL_drop_self _
        have hnt := hrec.1
        have hR0 : leadNL (reSubGo p20 rep20 (k + 1) n (some '\n')
            ((c :: rest).drop (leadNL (c :: rest)))) = 0 := by
          have h4 := hrec.2.1
          omega
        have e1 : leadNL ('\n' :: reSubGo p20 rep20 (k + 1) n (some '\n')
            ((c :: rest).drop (leadNL (c :: rest)))) = 1 := by
          rw [leadNL_cons, if_pos rfl, hR0]
        have e2 : leadNL ('\n' :: '\n' :: reSubGo p20 rep20 (k + 1) n (some '\n')
            ((c :: rest).drop (leadNL (c :: rest)))) = 2 := by
          rw [leadNL_cons, if_pos rfl, e1]
        refine ⟨?_, ?_, ?_⟩
        · show noTriple ('\n' :: '\n' :: reSubGo p20 rep20 (k + 1) n (some '\n')
            ((c :: rest).drop (leadNL (c :: rest)))) = true
          have hb1 : ¬(2 ≤ leadNL ('\n' :: reSubGo p20 rep20 (k + 1) n (some '\n')
              ((c :: rest).drop (leadNL (c :: rest))))) := by omega
          have hb0 : ¬(2 ≤ leadNL (reSubGo p20 rep20 (k + 1) n (some '\n')
              ((c :: rest).drop (leadNL (c :: rest))))) := by omega
          simp only [noTriple, Bool.and_eq_true, Bool.not_eq_true',
            Bool.and_eq_false_iff, decide_eq_false_iff_not]
          exact ⟨Or.inr hb1, Or.inr hb0, hnt⟩
        · show leadNL ('\n' :: '\n' :: reSubGo p20 rep20 (k + 1) n (some '\n')
            ((c :: rest).drop (leadNL (c :: rest)))) ≤ leadNL (c :: rest)
          omega
        · show leadNL ('\n' :: '\n' :: reSubGo p20 rep20 (k + 1) n (some '\n')
            ((c :: rest).drop (leadNL (c :: rest)))) ≤ 2
          omega
      · rw [if_neg h3]
        have hrec := ih (some c) rest
        have hnt := hrec.1
        have hle1 := hrec.2.1
        have hle2 := hrec.2.2
        by_cases hc : c = '\n'
        · have hlead : leadNL (c :: rest) = leadNL rest + 1 := by
            rw [leadNL_cons, if_pos hc]
          have hRle : leadNL (reSubGo p20 rep20 (k + 1) n (some c) rest) ≤ 1 := by
            omega
          have e1 : leadNL (c :: reSubGo p20 rep20 (k + 1) n (some c) rest)
              = leadNL (reSubGo p20 rep20 (k + 1) n (some c) rest) + 1 := by
            rw [leadNL_cons, if_pos hc]
          refine ⟨?_, ?_, ?_⟩
          · show noTriple (c :: reSubGo p20 rep20 (k + 1) n (some c) rest) = true
            have hb : ¬(2 ≤ leadNL (reSubGo p20 rep20 (k + 1) n (some c) rest)) := by
              omega
            simp only [noTriple, Bool.and_eq_true, Bool.not_eq_true',
              Bool.and_eq_false_iff, decide_eq_false_iff_not]
            exact ⟨Or.inr hb, hnt⟩
          · show leadNL (c :: reSubGo p20 rep20 (k + 1) n (some c) rest)
                ≤ leadNL (c :: rest)
            omega
          · show leadNL (c :: reSubGo p20 rep20 (k + 1) n (some c) rest) ≤ 2
            omega
        · have e0 : leadNL (c :: reSubGo p20 rep20 (k + 1) n (some c) rest) = 0 := by
            rw [leadNL_cons, if_neg hc]
          refine ⟨?_, ?_, ?_⟩
          · show noTriple (c :: reSubGo p20 rep20 (k + 1) n (some c) rest) = true
            simp only [noTriple, Bool.and_eq_true, Bool.not_eq_true',
              Bool.and_eq_false_iff, decide_eq_false_iff_not]
            exact ⟨Or.inl hc, hnt⟩
          · show leadNL (c :: reSubGo p20 rep20 (k + 1) n (some c) rest)
                ≤ leadNL (c :: rest)
            omega
          · show leadNL (c :: reSubGo p20 rep20 (k + 1) n (some c) rest) ≤ 2
            omega

theorem reSub_p20_noTriple (s : List Char) :
    noTriple (reSub p20 rep20 s) = true := by
  have hf : 0 < reFuel p20 s := by
    unfold reFuel
    positivity
  exact (reSubGo_p20_tidy (reFuel p20 s) hf (s.length + 1) none s).1

theorem noiseStripped_noTriple (m0 : List Char) :
    noTriple (noiseStripped m0) = true := by
  unfold noiseStripped
  exact reSub_p20_noTriple _

/-! ## C10: the Cleaner output is trimmed and newline-collapsed -/

/-- C10: for every input, the Cleaner output has no leading or trailing
whitespace (the final strip) and no run of three or more consecutive
newlines (the newline-collapsing substitution is the last pattern pass,
and the final strip only removes edge characters). -/
theorem clean_output_trimmed_and_collapsed (t u : List Char) :
    ((clean_review_text t u).head?.all fun c => !isPySpace c) = true ∧
    ((clean_review_text t u).getLast?.all fun c => !isPySpace c) = true ∧
    noTriple (clean_review_text t u) = true := by
  unfold clean_review_text
  by_cases hg : (pyStrip t).isEmpty
  · rw [if_pos hg]
    exact ⟨rfl, rfl, rfl⟩
  · rw [if_neg hg]
    refine ⟨?_, ?_, ?_⟩
    · cases hx : (pyStrip (noiseStripped (meaningfulText t))).head? with
      | none => rfl
      | some c =>
        have hc := pyStrip_head_not_space _ c hx
        simp [Option.all, hc]
    · cases hx : (pyStrip (noiseStripped (meaningfulText t))).getLast? with
      | none => rfl
      | some c =>
        have hc := pyStrip_getLast_not_space _ c hx
        simp [Option.all, hc]
    · exact noTriple_of_within _ _ (pyStrip_within _) (noiseStripped_noTriple _)

/-! ## Supporting lemmas: substitution is the identity without a match -/

theorem reSubGo_id (r : RE) (rep : List Char) (fuel : Nat) :
    ∀ (suf : List Char) (prev : Option Char) (sfuel : Nat),
      suf.length < sfuel →
      reHasMatchGo r fuel prev suf = false →
      reSubGo r rep fuel sfuel prev suf = suf := by
  intro suf
  induction suf with
  | nil =>
    intro prev sfuel hs hm
    cases sfuel with
    | zero => rfl
    | succ m => rfl
  | cons c rest ih =>
    intro prev sfuel hs hm
    rw [reHasMatchGo] at hm
    by_cases he : (reEndsF fuel r prev (c :: rest)).isEmpty
    · have hnone : (reEndsF fuel r prev (c :: rest)).head? = none := by
        cases hee : reEndsF fuel r prev (c :: rest) with
        | nil => rfl
        | cons x xs => rw [hee] at he; simp at he
      simp only [he, Bool.not_true, if_neg] at hm
      cases sfuel with
      | zero => omega
      | succ m =>
        rw [reSubGo, hnone]
        have hlen : rest.length < m := by
          simp only [List.length_cons] at hs
          omega
        rw [ih (some c) m hlen hm]
    · have he2 : (reEndsF fuel r prev (c :: rest)).isEmpty = false :=
        Bool.not_eq_true _ ▸ he
      rw [he2] at hm
      simp at hm

theorem reSub_of_noMatch (r : RE) (rep s : List Char) (h : noMatch r s) :
    reSub r rep s = s := by
  unfold reSub
  exact reSubGo_id r rep (reFuel r s) s none (s.length + 1) (by omega) h

/-! ## Supporting lemmas: the marker fold -/

theorem foldl_step_le_acc (x : List Char) (ms : List (List Char)) :
    ∀ acc : Int,
      ms.foldl (fun acc m =>
        let pos := strFind (x.map asciiLower) (m.map asciiLower)
        if pos ≠ -1 ∧ pos < acc then pos else acc) acc ≤ acc := by
  induction ms with
  | nil => intro acc; simp
  | cons m ms ih =>
    intro acc
    simp only [List.foldl_cons]
    refine le_trans (ih _) ?_
    by_cases hc : strFind (x.map asciiLower) (m.map asciiLower) ≠ -1 ∧
        strFind (x.map asciiLower) (m.map asciiLower) < acc
    · rw [if_pos hc]
      exact le_of_lt hc.2
    · rw [if_neg hc]

theorem foldl_step_le_found (x : List Char) (ms : List (List Char))
    (m : List Char) (v : Int) (hv : v ≠ -1) :
    ∀ acc : Int, m ∈ ms →
      strFind (x.map asciiLower) (m.map asciiLower) = v →
      ms.foldl (fun acc m =>
        let pos := strFind (x.map asciiLower) (m.map asciiLower)
        if pos ≠ -1 ∧ pos < acc then pos else acc) acc ≤ v := by
  induction ms with
  | nil => intro acc h; simp at h
  | cons m2 ms ih =>
    intro acc hmem hfind
    simp only [List.foldl_cons]
    rcases List.mem_cons.mp hmem with heq | htail
    · subst heq
      rw [hfind]
      by_cases hc : v ≠ -1 ∧ v < acc
      · rw [if_pos hc]
        exact foldl_step_le_acc x ms v
      · have hge : acc ≤ v := by
          rcases not_and_or.mp hc with h1 | h2
          · exact absurd hv h1
          · omega
        rw [if_neg hc]
        exact le_trans (foldl_step_le_acc x ms acc) hge
    · exact ih _ htail hfind

theorem foldl_step_all_neg (x : List Char) (ms : List (List Char)) :
    ∀ acc : Int,
      (∀ m ∈ ms, strFind (x.map asciiLower) (m.map asciiLower) = -1) →
      ms.foldl (fun acc m =>
        let pos := strFind (x.map asciiLower) (m.map asciiLower)
        if pos ≠ -1 ∧ pos < acc then pos else acc) acc = acc := by
  induction ms with
  | nil => intro acc _; rfl
  | cons m ms ih =>
    intro acc h
    simp only [List.foldl_cons]
    have hm := h m (List.mem_cons_self m ms)
    rw [hm, if_neg (by simp)]
    exact ih acc (fun m2 hm2 => h m2 (List.mem_cons_of_mem _ hm2))

theorem firstEndPos_of_markerFree (x : List Char) (h : markerFree x) :
    firstEndPos x = (x.length : Int) := by
  unfold firstEndPos
  exact foldl_step_all_neg x end_markers _ h

/-! ## Supporting lemmas: the split fallback cannot lengthen -/

theorem reSplitGo_length (r : RE) (fuel : Nat) :
    ∀ (suf : List Char) (prev : Option Char) (pre : List Char),
      reSplitGo r fuel prev suf = some pre → pre.length ≤ suf.length := by
  intro suf
  induction suf with
  | nil =>
    intro prev pre h
    rw [reSplitGo] at h
    by_cases he : ((reEndsF fuel r prev []).isEmpty : Bool) = false
    · rw [if_pos (by simp [he])] at h
      simp only [Option.some.injEq] at h
      rw [← h]
    · rw [if_neg (by simpa using he)] at h
      simp at h
  | cons c rest ih =>
    intro prev pre h
    rw [reSplitGo] at h
    by_cases he : ((reEndsF fuel r prev (c :: rest)).isEmpty : Bool) = false
    · rw [if_pos (by simp [he])] at h
      simp only [Option.some.injEq] at h
      rw [← h]
      simp
    · rw [if_neg (by simpa using he)] at h
      cases hg : reSplitGo r fuel (some c) rest with
      | none => rw [hg] at h; simp at h
      | some pre2 =>
        rw [hg] at h
        simp only [Option.some.injEq] at h
        rw [← h]
        have := ih (some c) pre2 hg
        simp only [List.length_cons]
        omega

theorem reSplitFirst_length_le (r : RE) (s : List Char) :
    (reSplitFirst r s).length ≤ s.length := by
  unfold reSplitFirst
  cases hg : reSplitGo r (reFuel r s) none s with
  | none => exact le_refl _
  | some pre => exact reSplitGo_length r (reFuel r s) s none pre hg

/-! ## The Cleaner fixes strongly clean text -/

theorem clean_fixes (x u : List Char) (h : alreadyCleanStrong x) :
    clean_review_text x u = x := by
  obtain ⟨hstrip, hmf, hnm⟩ := h
  unfold clean_review_text
  by_cases hg : (pyStrip x).isEmpty
  · rw [if_pos hg]
    rw [hstrip] at hg
    exact (List.isEmpty_iff.mp hg).symm
  · rw [if_neg hg]
    have hfep : firstEndPos x = (x.length : Int) := firstEndPos_of_markerFree x hmf
    have htrunc : truncatedText x = x := by
      unfold truncatedText
      rw [hfep, Int.toNat_natCast, List.take_length]
      exact hstrip
    have hmean : meaningfulText x = x := by
      unfold meaningfulText
      rw [htrunc]
      by_cases hlen : x.length < 300
      · rw [if_pos hlen]
        have hsplit := reSplitFirst_length_le sepRE x
        rw [if_neg (by omega)]
      · rw [if_neg hlen]
    have hp01 : reSub p01 [] x = x :=
      reSub_of_noMatch _ _ _ (hnm p01 (by simp [noisePatterns]))
    have hp02 : reSub p02 [] x = x :=
      reSub_of_noMatch _ _ _ (hnm p02 (by simp [noisePatterns]))
    have hp03 : reSub p03 [] x = x :=
      reSub_of_noMatch _ _ _ (hnm p03 (by simp [noisePatterns]))
    have hp04 : reSub p04 [] x = x :=
      reSub_of_noMatch _ _ _ (hnm p04 (by simp [noisePatterns]))
    have hp05 : reSub p05 [] x = x :=
      reSub_of_noMatch _ _ _ (hnm p05 (by simp [noisePatterns]))
    have hp06 : reSub p06 [] x = x :=
      reSub_of_noMatch _ _ _ (hnm p06 (by simp [noisePatterns]))
    have hp07 : reSub p07 [] x = x :=
      reSub_of_noMatch _ _ _ (hnm p07 (by simp [noisePatterns]))
    have hp08 : reSub p08 rep08 x = x :=
      reSub_of_noMatch _ _ _ (hnm p08 (by simp [noisePatterns]))
    have hp09 : reSub p09 rep09 x = x :=
      reSub_of_noMatch _ _ _ (hnm p09 (by simp [noisePatterns]))
    have hp10 : reSub p10 rep10 x = x :=
      reSub_of_noMatch _ _ _ (hnm p10 (by simp [noisePatterns]))
    have hp11 : reSub p11 [] x = x :=
      reSub_of_noMatch _ _ _ (hnm p11 (by simp [noisePatterns]))
    have hp12 : reSub p12 rep12 x = x :=
      reSub_of_noMatch _ _ _ (hnm p12 (by simp [noisePatterns]))
    have hp13 : reSub p13 rep13 x = x :=
      reSub_of_noMatch _ _ _ (hnm p13 (by simp [noisePatterns]))
    have hp14 : reSub p14 rep14 x = x :=
      reSub_of_noMatch _ _ _ (hnm p14 (by simp [noisePatterns]))
    have hp15 : reSub p15 rep15 x = x :=
      reSub_of_noMatch _ _ _ (hnm p15 (by simp [noisePatterns]))
    have hp16 : reSub p16 rep16 x = x :=
      reSub_of_noMatch _ _ _ (hnm p16 (by simp [noisePatterns]))
    have hp17 : reSub p17 rep17 x = x :=
      reSub_of_noMatch _ _ _ (hnm p17 (by simp [noisePatterns]))
    have hp18 : reSub p18 rep18 x = x :=
      reSub_of_noMatch _ _ _ (hnm p18 (by simp [noisePatterns]))
    have hp19 : reSub p19 [] x = x :=
      reSub_of_noMatch _ _ _ (hnm p19 (by simp [noisePatterns]))
    have hp20 : reSub p20 rep20 x = x :=
      reSub_of_noMatch _ _ _ (hnm p20 (by simp [noisePatterns]))
    rw [hmean]
    simp only [noiseStripped]
    rw [hp01, hstrip, hp02, hstrip, hp03, hstrip, hp04, hstrip, hp05, hp06,
      hp07, hp08, hp09, hp10, hp11, hp12, hp13, hp14, hp15, hp16, hp17,
      hp18, hp19, hp20]
    exact hstrip

/-! ## C9 (amended): the Cleaner is idempotent on strongly clean text -/

/-- C9 (amended): on text that is stripped, marker-free, and matched by
no noise pattern, the Cleaner is the identity, hence idempotent.
Marker-freeness alone is not enough: a noise substitution can splice a
marker together (see the counterexample). -/
theorem clean_idempotent_strong (x u : List Char) (h : alreadyCleanStrong x) :
    clean_review_text (clean_review_text x u) u = clean_review_text x u := by
  rw [clean_fixes x u h]
  exact clean_fixes x u h

/-- Witness for C9 at a concrete strongly clean text. -/
theorem clean_idempotent_strong_witness :
    alreadyCleanStrong (("hello").data) ∧
    clean_review_text (clean_review_text (("hello").data) []) [] =
      clean_review_text (("hello").data) [] :=
  ⟨by decide, clean_idempotent_strong (("hello").data) [] (by decide)⟩

/-! ## C2 (amended): the truncation step is bounded by the marker offset -/

/-- C2 (amended): when a marker occurs case-insensitively at offset N,
the truncation step of the Cleaner (text up to the minimum marker offset,
stripped) has length at most N.  The final output can be longer when the
short-result fallback re-expands (see the counterexample). -/
theorem truncation_bounded_by_marker (t m : List Char) (N : Nat)
    (hm : m ∈ end_markers)
    (hf : strFind (t.map asciiLower) (m.map asciiLower) = (N : Int)) :
    (truncatedText t).length ≤ N := by
  have h1 : firstEndPos t ≤ (N : Int) := by
    unfold firstEndPos
    exact foldl_step_le_found t end_markers m ((N : Nat) : Int) (by omega) _ hm hf
  have h2 : (firstEndPos t).toNat ≤ N := Int.toNat_le.mpr h1
  have h3 : (truncatedText t).length ≤ (t.take (firstEndPos t).toNat).length :=
    pyStrip_length_le _
  have h4 : (t.take (firstEndPos t).toNat).length ≤ (firstEndPos t).toNat := by
    rw [List.length_take]
    exact min_le_left _ _
  omega

/-- Witness for C2 (amended) at a marker offset of 2. -/
theorem truncation_bounded_by_marker_witness :
    (("Pros:").data ∈ end_markers ∧
      strFind ((("xxPros:y").data).map asciiLower)
        ((("Pros:").data).map asciiLower) = ((2 : Nat) : Int)) ∧
    (truncatedText (("xxPros:y").data)).length ≤ 2 :=
  ⟨⟨by decide, by decide⟩,
   truncation_bounded_by_marker (("xxPros:y").data) (("Pros:").data) 2
     (by decide) (by decide)⟩

/-! ## Supporting lemmas: first-occurrence semantics of find -/

theorem strFindAux_nil (pat : List Char) (i : Nat) :
    strFindAux pat [] i = if pat.isPrefixOf [] then (i : Int) else -1 := rfl

theorem strFindAux_cons (pat : List Char) (c : Char) (rest : List Char) (i : Nat) :
    strFindAux pat (c :: rest) i =
      if pat.isPrefixOf (c :: rest) then (i : Int)
      else strFindAux pat rest (i + 1) := rfl

theorem strFindAux_spec (pat : List Char) :
    ∀ (suf : List Char) (i : Nat),
      (strFindAux pat suf i = -1 ∧
        ∀ j : Nat, pat.isPrefixOf (suf.drop j) = false) ∨
      (∃ j : Nat, strFindAux pat suf i = ((i + j : Nat) : Int) ∧
        pat.isPrefixOf (suf.drop j) = true ∧
        ∀ j2, j2 < j → pat.isPrefixOf (suf.drop j2) = false) := by
  intro suf
  induction suf with
  | nil =>
    intro i
    by_cases hp : pat.isPrefixOf [] = true
    · right
      refine ⟨0, ?_, by simpa using hp, by omega⟩
      rw [strFindAux_nil, if_pos hp]
      simp
    · left
      constructor
      · rw [strFindAux_nil, if_neg hp]
      · intro j
        simp only [List.drop_nil]
        exact Bool.eq_false_iff.mpr hp
  | cons c rest ih =>
    intro i
    by_cases hp : pat.isPrefixOf (c :: rest) = true
    · right
      refine ⟨0, ?_, by simpa using hp, by omega⟩
      rw [strFindAux_cons, if_pos hp]
      simp
    · rcases ih (i + 1) with ⟨h1, h2⟩ | ⟨j, h1, h2, h3⟩
      · left
        constructor
        · rw [strFindAux_cons, if_neg hp]
          exact h1
        · intro j
          cases j with
          | zero =>
            simpa using Bool.eq_false_iff.mpr hp
          | succ j2 =>
            simpa using h2 j2
      · right
        refine ⟨j + 1, ?_, by simpa using h2, ?_⟩
        · rw [strFindAux_cons, if_neg hp, h1]
          congr 1
          omega
        · intro j2 hj2
          cases j2 with
          | zero =>
            simpa using Bool.eq_false_iff.mpr hp
          | succ j3 =>
            simpa using h3 j3 (by omega)

theorem strFind_found_of_occ (s pat : List Char) (q : Nat)
    (hq : pat.isPrefixOf (s.drop q) = true) :
    ∃ p : Nat, strFind s pat = (p : Int) ∧ p ≤ q ∧
      pat.isPrefixOf (s.drop p) = true := by
  rcases strFindAux_spec pat s 0 with ⟨_, h2⟩ | ⟨j, h1, h2, h3⟩
  · rw [h2 q] at hq
    simp at hq
  · refine ⟨j, by simpa using h1, ?_, h2⟩
    by_contra hlt
    push_neg at hlt
    rw [h3 q hlt] at hq
    simp at hq

/-! ## C3 (amended): the truncation step removes all markers -/

/-- C3 (amended): the marker-truncation step of the Cleaner produces text
with no case-insensitive occurrence of any marker (by the minimality of
the chosen offset).  The final output can reintroduce markers when the
short-result fallback re-expands (see the counterexample). -/
theorem truncated_marker_free (t m : List Char) (hm : m ∈ end_markers) :
    strFind ((truncatedText t).map asciiLower) (m.map asciiLower) = -1 := by
  by_contra hne
  rcases strFindAux_spec (m.map asciiLower)
      ((truncatedText t).map asciiLower) 0 with ⟨h1, _⟩ | ⟨j, _, h2, _⟩
  · exact hne (by simpa using h1)
  · -- an occurrence of the lowered marker inside the truncated text
    have hmne : m ≠ [] := by
      have hall : ∀ m2 ∈ end_markers, m2 ≠ [] := by decide
      exact hall m hm
    have hmlen : 1 ≤ m.length := by
      cases m with
      | nil => exact absurd rfl hmne
      | cons a b => simp
    have hinf : truncatedText t <:+: t.take (firstEndPos t).toNat :=
      pyStrip_within _
    obtain ⟨u, v, huv⟩ := hinf
    have hfit : j + m.length ≤ (truncatedText t).length := by
      have hp := (List.isPrefixOf_iff_prefix.mp h2).length_le
      simp only [List.length_map, List.length_drop] at hp
      omega
    -- lift the occurrence to the take-prefix of t
    have hX : (t.take (firstEndPos t).toNat).map asciiLower =
        u.map asciiLower ++ ((truncatedText t).map asciiLower ++ v.map asciiLower) := by
      have h5 := congrArg (List.map asciiLower) huv
      simp only [List.map_append] at h5
      rw [← h5, List.append_assoc]
    have hdrop1 : ((t.take (firstEndPos t).toNat).map asciiLower).drop
        (u.length + j) =
        (((truncatedText t).map asciiLower).drop j ++ v.map asciiLower) := by
      rw [hX]
      rw [show u.length + j = (u.map asciiLower).length + j by rw [List.length_map]]
      rw [List.drop_append]
      rw [List.drop_append_eq_append_drop]
      have hj : j ≤ ((truncatedText t).map asciiLower).length := by
        rw [List.length_map]
        omega
      rw [show j - ((truncatedText t).map asciiLower).length = 0 by omega,
        List.drop_zero]
    have hocc1 : (m.map asciiLower).isPrefixOf
        (((t.take (firstEndPos t).toNat).map asciiLower).drop (u.length + j))
        = true := by
      rw [hdrop1]
      rw [List.isPrefixOf_iff_prefix] at h2 ⊢
      exact h2.trans (List.prefix_append _ _)
    -- lift to t itself
    have hocc2 : (m.map asciiLower).isPrefixOf
        ((t.map asciiLower).drop (u.length + j)) = true := by
      rw [List.isPrefixOf_iff_prefix] at hocc1 ⊢
      rw [List.map_take, List.drop_take] at hocc1
      exact hocc1.trans (List.take_prefix _ _)
    obtain ⟨p0, hp0, hple, _⟩ :=
      strFind_found_of_occ (t.map asciiLower) (m.map asciiLower) _ hocc2
    have hfold : firstEndPos t ≤ ((p0 : Nat) : Int) := by
      unfold firstEndPos
      exact foldl_step_le_found t end_markers m ((p0 : Nat) : Int) (by omega) _ hm hp0
    have hfep : (firstEndPos t).toNat ≤ p0 := Int.toNat_le.mpr hfold
    -- the occurrence sits strictly before the truncation offset
    have hXlen : u.length + (truncatedText t).length ≤
        (t.take (firstEndPos t).toNat).length := by
      rw [← huv]
      simp
    have hTake : (t.take (firstEndPos t).toNat).length ≤
        (firstEndPos t).toNat := by
      rw [List.length_take]
      exact min_le_left _ _
    omega

/-- Witness for C3 (amended) at a concrete marker-bearing text. -/
theorem truncated_marker_free_witness :
    ("Pros:").data ∈ end_markers ∧
    strFind ((truncatedText (("abPros:cd").data)).map asciiLower)
      ((("Pros:").data).map asciiLower) = -1 :=
  ⟨by decide, truncated_marker_free (("abPros:cd").data) (("Pros:").data)
    (by decide)⟩

/-! ## Supporting lemmas: the chunker -/

theorem chunkerNext_ge_succ (t : List Char) (mc ov c : Nat) :
    c + 1 ≤ chunkerNext t mc ov c :=
  le_max_left _ _

theorem chunkerEnd_ge_succ (t : List Char) (mc ov c : Nat)
    (hc : c < t.length) (hmc : 1 ≤ mc) : c + 1 ≤ chunkerEnd t mc ov c := by
  unfold chunkerEnd
  by_cases h1 : strRfind t paraBreak c (min (c + mc) t.length)
      > (c : Int) + (ov : Int)
  · rw [if_pos h1]
    omega
  · rw [if_neg h1]
    by_cases h2 : strRfind t dotChar c (min (c + mc) t.length)
        > (c : Int) + (ov : Int)
    · rw [if_pos h2]
      omega
    · rw [if_neg h2]
      omega

theorem chunkerNext_le_end (t : List Char) (mc ov c : Nat)
    (hc : c < t.length) (hmc : 1 ≤ mc) :
    chunkerNext t mc ov c ≤ chunkerEnd t mc ov c := by
  have h1 := chunkerEnd_ge_succ t mc ov c hc hmc
  unfold chunkerNext
  omega

theorem chunker_windows_loop_cover (t : List Char) (mc ov : Nat)
    (hmc : 1 ≤ mc) :
    ∀ (fuel c : Nat), t.length - c < fuel → c < t.length →
      ∀ i, c ≤ i → i < t.length →
        ∃ w ∈ chunker_windows_loop t mc ov fuel c, w.1 ≤ i ∧ i < w.2 := by
  intro fuel
  induction fuel with
  | zero =>
    intro c h
    omega
  | succ n ih =>
    intro c hfc hc i hci hi
    rw [chunker_windows_loop, if_pos hc]
    by_cases hbr : ((chunkerEnd t mc ov c : Int) - (ov : Int))
        ≤ (chunkerNext t mc ov c : Int) ∧ chunkerEnd t mc ov c = t.length
    · rw [if_pos hbr]
      refine ⟨(c, chunkerEnd t mc ov c), List.mem_singleton_self _, hci, ?_⟩
      show i < chunkerEnd t mc ov c
      rw [hbr.2]
      exact hi
    · rw [if_neg hbr]
      by_cases hie : i < chunkerEnd t mc ov c
      · exact ⟨(c, chunkerEnd t mc ov c), List.mem_cons_self _ _, hci, hie⟩
      · push_neg at hie
        have hC2 := chunkerNext_le_end t mc ov c hc hmc
        have hc2i : chunkerNext t mc ov c ≤ i := le_trans hC2 hie
        have hc2len : chunkerNext t mc ov c < t.length := lt_of_le_of_lt hc2i hi
        have hprog := chunkerNext_ge_succ t mc ov c
        have hfuel : t.length - chunkerNext t mc ov c < n := by omega
        obtain ⟨w, hw, hw2⟩ := ih (chunkerNext t mc ov c) hfuel hc2len i hc2i hi
        exact ⟨w, List.mem_cons_of_mem _ hw, hw2⟩

/-- C5 (amended): with a positive max_chars, every position of the input
text lies inside some window visited by the chunker loop.  Restricted to
the windows of chunks that are actually emitted, the property fails,
because a window whose trimmed chunk is empty is skipped (see the
counterexample). -/
theorem chunker_windows_cover (t : List Char) (mc ov : Nat) (hmc : 1 ≤ mc)
    (i : Nat) (hi : i < t.length) :
    ∃ w ∈ chunkerWindows t mc ov, w.1 ≤ i ∧ i < w.2 := by
  unfold chunkerWindows
  have hc : 0 < t.length := by omega
  exact chunker_windows_loop_cover t mc ov hmc (t.length + 1) 0 (by omega) hc
    i (by omega) hi

/-- Witness for C5 (amended) at a two-character text. -/
theorem chunker_windows_cover_witness :
    1 ≤ 1 ∧ 0 < (("ab").data).length ∧
    ∃ w ∈ chunkerWindows (("ab").data) 1 0, w.1 ≤ 0 ∧ 0 < w.2 :=
  ⟨le_refl 1, by decide, chunker_windows_cover (("ab").data) 1 0 (le_refl 1)
    0 (by decide)⟩

/-- The chunker loop returns exactly the stripped slices of the emitted
windows of the windows loop: the two loops walk the same cursor sequence. -/
theorem simple_chunker_loop_eq_windows (t : List Char) (mc ov : Nat) :
    ∀ (fuel c : Nat) (acc : List (List Char)),
      simple_chunker_loop t mc ov fuel c acc =
        acc ++ ((chunker_windows_loop t mc ov fuel c).map
          (fun w => pyStrip (pySlice t w.1 w.2))).filter (fun x => !x.isEmpty) := by
  intro fuel
  induction fuel with
  | zero =>
    intro c acc
    simp [simple_chunker_loop, chunker_windows_loop]
  | succ n ih =>
    intro c acc
    rw [simple_chunker_loop, chunker_windows_loop]
    by_cases hc : c < t.length
    · rw [if_pos hc, if_pos hc]
      by_cases hbr : ((chunkerEnd t mc ov c : Int) - (ov : Int))
          ≤ (chunkerNext t mc ov c : Int) ∧ chunkerEnd t mc ov c = t.length
      · rw [if_pos hbr, if_pos hbr]
        by_cases hch : (pyStrip (pySlice t c (chunkerEnd t mc ov c))).isEmpty
        · have hb : (!(pyStrip (pySlice t c (chunkerEnd t mc ov c))).isEmpty)
              = false := by simp [hch]
          rw [if_pos hch]
          simp [List.filter_cons, hb]
        · have hb : (!(pyStrip (pySlice t c (chunkerEnd t mc ov c))).isEmpty)
              = true := by simp [hch]
          rw [if_neg hch]
          simp [List.filter_cons, hb]
      · rw [if_neg hbr, if_neg hbr]
        rw [ih]
        by_cases hch : (pyStrip (pySlice t c (chunkerEnd t mc ov c))).isEmpty
        · have hb : (!(pyStrip (pySlice t c (chunkerEnd t mc ov c))).isEmpty)
              = false := by simp [hch]
          rw [if_pos hch]
          simp [List.filter_cons, hb]
        · have hb : (!(pyStrip (pySlice t c (chunkerEnd t mc ov c))).isEmpty)
              = true := by simp [hch]
          rw [if_neg hch]
          simp [List.filter_cons, hb]
    · rw [if_neg hc, if_neg hc]
      simp

theorem simple_chunker_eq_emitted (t : List Char) (mc ov : Nat) :
    simple_chunker t mc ov =
      (emittedWindows t mc ov).map (fun w => pyStrip (pySlice t w.1 w.2)) := by
  unfold simple_chunker emittedWindows chunkerWindows
  rw [simple_chunker_loop_eq_windows]
  rw [List.nil_append, List.filter_filter]
  rw [List.filter_map]
  have hfun : ((fun a : List Char => !a.isEmpty && !a.isEmpty)
        ∘ fun w : Nat × Nat => pyStrip (pySlice t w.1 w.2))
      = (fun w : Nat × Nat => !(pyStrip (pySlice t w.1 w.2)).isEmpty) := by
    funext w
    simp [Function.comp, Bool.and_self]
  rw [hfun]

/-- C4 (amended): the empty text yields zero chunks; a non-empty text
shorter than max_chars yields exactly one chunk provided its trimmed form
is non-empty and it has no paragraph break or period beyond the overlap
(otherwise the first window is cut early and a second chunk follows; see
the counterexample). -/
theorem chunker_edge_cases (t : List Char) (mc ov : Nat) :
    (t = [] → simple_chunker t mc ov = []) ∧
    (t ≠ [] → pyStrip t ≠ [] → t.length < mc →
      strRfind t paraBreak 0 t.length ≤ (ov : Int) →
      strRfind t dotChar 0 t.length ≤ (ov : Int) →
      (simple_chunker t mc ov).length = 1) := by
  constructor
  · intro h
    subst h
    rfl
  · intro hne hstrip hlen hpara hdot
    have hlen0 : 0 < t.length := List.length_pos.mpr hne
    have hmin : min (0 + mc) t.length = t.length := by omega
    have hE : chunkerEnd t mc ov 0 = t.length := by
      unfold chunkerEnd
      rw [hmin]
      rw [if_neg (by omega), if_neg (by omega)]
    have hBrk : ((chunkerEnd t mc ov 0 : Int) - (ov : Int))
        ≤ (chunkerNext t mc ov 0 : Int) := by
      unfold chunkerNext
      omega
    have hch : (pyStrip (pySlice t 0 (chunkerEnd t mc ov 0))).isEmpty = false := by
      rw [hE]
      unfold pySlice
      rw [List.take_length, List.drop_zero]
      cases hx : pyStrip t with
      | nil => exact absurd hx hstrip
      | cons a b => rfl
    have hch2 : ¬((pyStrip (pySlice t 0 (chunkerEnd t mc ov 0))).isEmpty = true) := by
      rw [hch]
      simp
    unfold simple_chunker
    rw [simple_chunker_loop, if_pos hlen0, if_pos ⟨hBrk, hE⟩, if_neg hch2]
    rw [hE]
    unfold pySlice
    rw [List.take_length, List.drop_zero, List.nil_append]
    have hb : (!(pyStrip t).isEmpty) = true := by
      cases hx : pyStrip t with
      | nil => exact absurd hx hstrip
      | cons a b => rfl
    simp [List.filter_cons, hb]

/-- Witness for C4 (amended) at a two-character text with max_chars 3. -/
theorem chunker_edge_cases_witness :
    ((("hi").data ≠ ([] : List Char)) ∧ pyStrip (("hi").data) ≠ [] ∧
      ((("hi").data)).length < 3 ∧
      strRfind (("hi").data) paraBreak 0 ((("hi").data)).length ≤ ((0 : Nat) : Int) ∧
      strRfind (("hi").data) dotChar 0 ((("hi").data)).length ≤ ((0 : Nat) : Int)) ∧
    (simple_chunker (("hi").data) 3 0).length = 1 :=
  ⟨⟨by decide, by decide, by decide, by decide, by decide⟩,
   (chunker_edge_cases (("hi").data) 3 0).2 (by decide) (by decide) (by decide)
     (by decide) (by decide)⟩

/-! ## Supporting lemmas: decimal ids -/

theorem charOfNat_digit_toNat : ∀ d : Nat, d < 10 →
    (Char.ofNat (48 + d)).toNat = 48 + d := by decide

theorem fromDecimal_append_digit (xs : List Char) (c : Char) :
    fromDecimal (xs ++ [c]) = (fromDecimal xs) * 10 + (c.toNat - 48) := by
  unfold fromDecimal
  rw [List.foldl_append]
  rfl

theorem fromDecimal_natDecimal (n : Nat) : fromDecimal (natDecimal n) = n := by
  induction n using Nat.strong_induction_on with
  | _ n ih =>
    rw [natDecimal]
    by_cases h : n < 10
    · rw [dif_pos h]
      show 0 * 10 + ((Char.ofNat (48 + n)).toNat - 48) = n
      have hb := charOfNat_digit_toNat n h
      omega
    · rw [dif_neg h]
      rw [fromDecimal_append_digit]
      rw [ih (n / 10) (Nat.div_lt_self (by omega) (by omega))]
      have hb := charOfNat_digit_toNat (n % 10) (Nat.mod_lt _ (by omega))
      omega

theorem natDecimal_inj (a b : Nat) (h : natDecimal a = natDecimal b) : a = b := by
  have ha := fromDecimal_natDecimal a
  have hb := fromDecimal_natDecimal b
  rw [h] at ha
  omega

theorem natDecimal_toNat_lt (n : Nat) :
    ∀ c ∈ natDecimal n, c.toNat < 58 := by
  induction n using Nat.strong_induction_on with
  | _ n ih =>
    intro c hc
    rw [natDecimal] at hc
    by_cases h : n < 10
    · rw [dif_pos h] at hc
      simp only [List.mem_singleton] at hc
      subst hc
      have hb := charOfNat_digit_toNat n h
      omega
    · rw [dif_neg h] at hc
      rcases List.mem_append.mp hc with h1 | h2
      · exact ih (n / 10) (Nat.div_lt_self (by omega) (by omega)) c h1
      · simp only [List.mem_singleton] at h2
        subst h2
        have hb := charOfNat_digit_toNat (n % 10) (Nat.mod_lt _ (by omega))
        omega

theorem natDecimal_no_underscore (n : Nat) :
    ∀ c ∈ natDecimal n, c ≠ '_' := by
  intro c hc he
  have h1 := natDecimal_toNat_lt n c hc
  rw [he] at h1
  simp at h1

theorem underscore_append_cancel :
    ∀ (xs ys u v : List Char), (∀ c ∈ xs, c ≠ '_') → (∀ c ∈ ys, c ≠ '_') →
      xs ++ '_' :: u = ys ++ '_' :: v → xs = ys ∧ u = v := by
  intro xs
  induction xs with
  | nil =>
    intro ys u v _ hy h
    cases ys with
    | nil =>
      simp only [List.nil_append, List.cons.injEq] at h
      exact ⟨rfl, h.2⟩
    | cons b bs =>
      simp only [List.nil_append, List.cons_append, List.cons.injEq] at h
      exact absurd h.1.symm (hy b (List.mem_cons_self _ _))
  | cons a as ih =>
    intro ys u v hx hy h
    cases ys with
    | nil =>
      simp only [List.cons_append, List.nil_append, List.cons.injEq] at h
      exact absurd h.1 (hx a (List.mem_cons_self _ _))
    | cons b bs =>
      simp only [List.cons_append, List.cons.injEq] at h
      have hab := h.1
      have htail := ih bs u v
        (fun c hc => hx c (List.mem_cons_of_mem _ hc))
        (fun c hc => hy c (List.mem_cons_of_mem _ hc)) h.2
      exact ⟨by rw [hab, htail.1], htail.2⟩

theorem mkDocId_inj (a b a2 b2 : Nat) (h : mkDocId a b = mkDocId a2 b2) :
    a = a2 ∧ b = b2 := by
  unfold mkDocId at h
  simp only [List.append_assoc] at h
  have h1 := List.append_cancel_left h
  have h2 := underscore_append_cancel (natDecimal a) (natDecimal a2)
    ((['c', 'h', 'u', 'n', 'k', '_'] : List Char) ++ natDecimal b)
    ((['c', 'h', 'u', 'n', 'k', '_'] : List Char) ++ natDecimal b2)
    (natDecimal_no_underscore a) (natDecimal_no_underscore a2) h1
  have h3 := List.append_cancel_left h2.2
  exact ⟨natDecimal_inj _ _ h2.1, natDecimal_inj _ _ h3⟩

/-! ## Supporting lemmas: the corpus id list has no duplicates -/

theorem reviewRows_id_shape (i : Nat) (r : ReviewRec) (e : IndexEntry)
    (he : e ∈ reviewRows i r) : ∃ k, e.id = mkDocId (i + 1) (k + 1) := by
  unfold reviewRows at he
  by_cases hc : r.content_text.isEmpty
  · rw [if_pos hc] at he
    simp at he
  · rw [if_neg hc] at he
    obtain ⟨kc, _, hkc⟩ := List.mem_map.mp he
    exact ⟨kc.1, by rw [← hkc]⟩

theorem buildRows_id_shape :
    ∀ (rs : List ReviewRec) (j : Nat) (e : IndexEntry),
      e ∈ buildRows j rs → ∃ d k, j + 1 ≤ d ∧ e.id = mkDocId d (k + 1) := by
  intro rs
  induction rs with
  | nil =>
    intro j e he
    simp [buildRows] at he
  | cons r rs ih =>
    intro j e he
    rcases List.mem_append.mp he with h1 | h2
    · obtain ⟨k, hk⟩ := reviewRows_id_shape j r e h1
      exact ⟨j + 1, k, le_refl _, hk⟩
    · obtain ⟨d, k, hd, hk⟩ := ih (j + 1) e h2
      exact ⟨d, k, by omega, hk⟩

theorem reviewRows_ids_nodup (i : Nat) (r : ReviewRec) :
    ((reviewRows i r).map (fun e => e.id)).Nodup := by
  unfold reviewRows
  by_cases hc : r.content_text.isEmpty
  · rw [if_pos hc]
    simp
  · rw [if_neg hc]
    rw [List.map_map]
    have hinj : Function.Injective
        (fun k : Nat => mkDocId (i + 1) (k + 1)) := by
      intro k1 k2 hk
      have := mkDocId_inj (i + 1) (k1 + 1) (i + 1) (k2 + 1) hk
      omega
    have hshape : ((fun e : IndexEntry => e.id) ∘ fun kc : Nat × List Char =>
        ({ document := kc.2,
           metadata := { source_url := r.url, title := r.title,
                         chunk_num := kc.1 + 1, original_doc_index := i + 1 },
           id := mkDocId (i + 1) (kc.1 + 1) } : IndexEntry))
        = (fun k : Nat => mkDocId (i + 1) (k + 1)) ∘ Prod.fst := by
      funext kc
      rfl
    rw [hshape, ← List.map_map]
    rw [List.enum_map_fst]
    exact (List.nodup_range _).map hinj

theorem buildRows_ids_nodup :
    ∀ (rs : List ReviewRec) (j : Nat),
      ((buildRows j rs).map (fun e => e.id)).Nodup := by
  intro rs
  induction rs with
  | nil =>
    intro j
    simp [buildRows]
  | cons r rs ih =>
    intro j
    show ((reviewRows j r ++ buildRows (j + 1) rs).map (fun e => e.id)).Nodup
    rw [List.map_append]
    rw [List.nodup_append]
    refine ⟨reviewRows_ids_nodup j r, ih (j + 1), ?_⟩
    intro a ha hb
    obtain ⟨e1, he1, hid1⟩ := List.mem_map.mp ha
    obtain ⟨e2, he2, hid2⟩ := List.mem_map.mp hb
    obtain ⟨k1, hk1⟩ := reviewRows_id_shape j r e1 he1
    obtain ⟨d, k2, hd, hk2⟩ := buildRows_id_shape rs (j + 1) e2 he2
    have heq : mkDocId (j + 1) (k1 + 1) = mkDocId d (k2 + 1) := by
      rw [← hk1, ← hk2, hid1, hid2]
    have := mkDocId_inj _ _ _ _ heq
    omega

/-- C6: the chunk ids generated by the Corpus Builder are pairwise
distinct across the whole corpus, for every input sequence of records:
distinct (document index, chunk index) pairs always yield distinct
review_..._chunk_... id strings. -/
theorem corpus_ids_unique (reviews : List ReviewRec) :
    (corpusIds reviews).Nodup :=
  buildRows_ids_nodup reviews 0


/-! ## Theorems -/

/-- C1: the chunker makes strict forward progress on every loop
iteration: for every text and parameters, the cursor update of
simple_chunker (max of cursor + 1 and end minus overlap) strictly
increases the cursor, which is exactly the measure justifying the
termination of `simple_chunker_loop`, so `simple_chunker` returns a
finite list of chunks on every input. -/
theorem chunker_cursor_progress (t : List Char) (mc ov c : Nat) :
    c < chunkerNext t mc ov c :=
  lt_of_lt_of_le (Nat.lt_succ_self c) (le_max_left _ _)

/-- C7: when the external index already holds at least one entry,
setup_vector_db returns it unchanged: nothing is added and the count is
unchanged. -/
theorem setup_vector_db_noop_when_populated (coll : Collection)
    (data : Option (List ReviewRec)) (h : 0 < coll.count) :
    setup_vector_db coll data = some coll := by
  unfold setup_vector_db
  simp [h]

/-- Witness for C7 at a one-entry collection. -/
theorem setup_vector_db_noop_when_populated_witness :
    0 < collOne.count ∧ setup_vector_db collOne none = some collOne :=
  ⟨by decide, setup_vector_db_noop_when_populated collOne none (by decide)⟩

/-- C8: with an initialized collection, a failing index query or a failing
language-model call makes perform_rag return the fixed apology string
rather than propagating the failure. -/
theorem perform_rag_error_containment {ε : Type} (coll : Collection)
    (llm : List Char → List Char → Except ε (List Char)) (query : List Char) :
    (∀ e : ε, perform_rag (some coll) (Except.error e) llm query = apologyMsg) ∧
    (∀ (qr : QueryResult) (e : ε),
       llm systemPrompt (userPrompt (contextBlock qr) query) = Except.error e →
       perform_rag (some coll) (Except.ok qr) llm query = apologyMsg) := by
  constructor
  · intro e; rfl
  · intro qr e h
    simp only [perform_rag, h]

/-- Witness for C8: both failure shapes at concrete collaborators. -/
theorem perform_rag_error_containment_witness :
    perform_rag (some collOne) (Except.error ())
      (fun _ _ => Except.error ()) [] = apologyMsg ∧
    perform_rag (some collOne) (Except.ok ⟨[], [], []⟩)
      (fun _ _ => Except.error ()) [] = apologyMsg :=
  ⟨(perform_rag_error_containment collOne (fun _ _ => Except.error ()) []).1 (),
   (perform_rag_error_containment collOne (fun _ _ => Except.error ()) []).2
     ⟨[], [], []⟩ () rfl⟩

/-- C4 counterexample: a non-empty 300-character text, shorter than the
default max_chars of 1800, on which simple_chunker returns two chunks
rather than one (the text has a period beyond the overlap, so the first
window is cut at the period and a second chunk follows). -/
theorem chunker_single_chunk_counterexample :
    chunkEdgeInput ≠ [] ∧ chunkEdgeInput.length < 1800 ∧
    (simple_chunker chunkEdgeInput 1800 200).length ≠ 1 := by decide

/-- C5 counterexample: on the one-character whitespace text, position 0
of the input lies in no emitted chunk window, because the only visited
window strips to an empty chunk which is skipped. -/
theorem chunker_coverage_counterexample :
    0 < ([' '] : List Char).length ∧
    ∀ w ∈ emittedWindows [' '] 1800 200, ¬(w.1 ≤ 0 ∧ 0 < w.2) := by decide

/-- C9 counterexample: a marker-free text on which the Cleaner is not
idempotent: removing the interjection Oof splices together the marker
Conclusion, which the second pass then truncates away entirely. -/
theorem clean_idempotent_counterexample :
    markerFree spliceInput ∧
    clean_review_text (clean_review_text spliceInput []) [] ≠
      clean_review_text spliceInput [] := by decide

/-- C2 counterexample: on a text whose first marker occurrence (Pros:) is
at offset 0, the Cleaner returns a 301-character string, because the
truncated text is shorter than 300 characters and the short-result
fallback re-expands to the whole input. -/
theorem clean_length_counterexample :
    (("Pros:").data ∈ end_markers ∧
      strFind (fallbackInput.map asciiLower) ((("Pros:").data).map asciiLower)
        = 0) ∧
    ¬((clean_review_text fallbackInput []).length ≤ 0) := by decide

/-- C3 counterexample: the output of the Cleaner on the same fallback
input still contains the marker Pros: (its case-insensitive search finds
it), violating the no-marker invariant. -/
theorem clean_marker_counterexample :
    (("Pros:").data ∈ end_markers) ∧
    strFind ((clean_review_text fallbackInput []).map asciiLower)
      ((("Pros:").data).map asciiLower) ≠ -1 := by decide

end PhotoAI
